import Mathlib

set_option autoImplicit false

/-!
Shallow embedding of the in-memory cache of the pokemon-api-proxy
repository (src/src/cache.rs, configuration types from src/src/config.rs).

Modelling choices:
- `std::time::Instant` is modelled as a `Nat` tick count; `elapsed()` at
  instant `now` is `now - created_at` (the clock is monotone, so truncated
  subtraction agrees with the source).  Every operation that reads the
  clock takes `now` as an explicit argument.
- The `HashMap<String, CacheEntry<T>>` is modelled as an association list
  with the HashMap's unique-key invariant stated separately (`WF`).  The
  list order stands in for the HashMap's iteration order, which the source
  only uses inside `evict_lru` via `Iterator::min_by` (first minimum in
  iteration order).
- Removing a key (`HashMap::remove`) removes every pair with that key from
  the list; on lists satisfying `WF` this is exactly the removal of the
  single entry, as in the source.
- `cleanup_expired_entries` collects the keys of expired entries and
  removes each; on a unique-key map this is precisely filtering out the
  expired entries, which is how it is written here.
- The `Mutex` always succeeds in this sequential model: each cache
  operation is a pure function from the pre-state to its result and
  post-state, and the `LockError` branches of the source are unreachable.
- `f64` arithmetic in `hit_rate` is modelled exactly over `ℚ`: the only
  operation is one division of two integer-valued quantities.
-/

namespace PokeProxy

/-- Embedding of `CacheConfig` from src/src/config.rs.  The source field
spelled with a raw identifier for the cache kind is called `kind` here;
`max_size` and `expiration` are `u32` in the source, modelled as `Nat`. -/
structure CacheConfig where
  kind : String
  max_size : Nat
  expiration : Nat
deriving Repr, DecidableEq

/-- Embedding of `CacheError` from src/src/cache.rs. -/
inductive CacheError where
  | LockError (msg : String)
  | MaxSizeExceeded
  | InvalidKey (msg : String)
deriving Repr, DecidableEq

/-- Embedding of `CacheEntry<T>` from src/src/cache.rs. -/
structure CacheEntry (V : Type) where
  value : V
  created_at : Nat
  access_count : Nat
deriving Repr, DecidableEq

/-- `CacheEntry::new`: created at the current instant with access count 1. -/
def CacheEntry.new {V : Type} (value : V) (now : Nat) : CacheEntry V :=
  { value := value, created_at := now, access_count := 1 }

/-- `CacheEntry::is_expired`: `created_at.elapsed() > expiration_duration`. -/
def CacheEntry.is_expired {V : Type} (e : CacheEntry V) (now ttl : Nat) : Bool :=
  decide (ttl < now - e.created_at)

/-- `CacheEntry::access`: bump the access count and return a clone of the
value together with the mutated entry. -/
def CacheEntry.access {V : Type} (e : CacheEntry V) : V × CacheEntry V :=
  (e.value, { e with access_count := e.access_count + 1 })

/-- Embedding of `CacheStats` from src/src/cache.rs; all counters are `u64`
in the source, modelled as `Nat`. -/
structure CacheStats where
  hits : Nat
  misses : Nat
  inserts : Nat
  removes : Nat
  cleanups : Nat
deriving Repr, DecidableEq

/-- `CacheStats::default()`: all counters zero. -/
def CacheStats.zero : CacheStats :=
  { hits := 0, misses := 0, inserts := 0, removes := 0, cleanups := 0 }

/-- `CacheStats::hit_rate`: `hits / (hits + misses)` as a ratio, `0.0` when
no lookups happened.  The source computes the quotient in `f64`; it is
modelled as the exact rational value. -/
def CacheStats.hit_rate (s : CacheStats) : ℚ :=
  if s.hits + s.misses = 0 then 0
  else (s.hits : ℚ) / ((s.hits : ℚ) + (s.misses : ℚ))

/-- The entry mapping: association-list model of the source HashMap. -/
abbrev Store (V : Type) := List (String × CacheEntry V)

/-- `HashMap::get` on the model: first entry with the given key. -/
def storeFind {V : Type} : Store V → String → Option (CacheEntry V)
  | [], _ => none
  | (k', e) :: rest, k => if k' = k then some e else storeFind rest k

/-- `HashMap::contains_key` on the model. -/
def storeContains {V : Type} (s : Store V) (k : String) : Bool :=
  (storeFind s k).isSome

/-- `HashMap::remove` on the model: drop every pair with the given key
(exactly one on a unique-key store). -/
def storeErase {V : Type} (s : Store V) (k : String) : Store V :=
  s.filter (fun p => decide (p.1 ≠ k))

/-- `HashMap::insert` on the model: replace the entry in place when the key
is present, otherwise append the new pair. -/
def storeInsert {V : Type} : Store V → String → CacheEntry V → Store V
  | [], k, e => [(k, e)]
  | (k', e') :: rest, k, e =>
      if k' = k then (k, e) :: rest else (k', e') :: storeInsert rest k e

/-- The strict comparison used by `evict_lru`'s `min_by`: earlier
`created_at` first, ties broken by lower `access_count`. -/
def EntryLt {V : Type} (a b : CacheEntry V) : Prop :=
  a.created_at < b.created_at ∨
    (a.created_at = b.created_at ∧ a.access_count < b.access_count)

instance {V : Type} (a b : CacheEntry V) : Decidable (EntryLt a b) := by
  unfold EntryLt; infer_instance

/-- The reflexive companion of `EntryLt` on the (created_at, access_count)
lexicographic order. -/
def EntryLe {V : Type} (a b : CacheEntry V) : Prop :=
  a.created_at < b.created_at ∨
    (a.created_at = b.created_at ∧ a.access_count ≤ b.access_count)

/-- `Iterator::min_by` over the store: the first minimum in iteration
order, replacing the current best only on a strictly smaller element. -/
def lruPick {V : Type} : Store V → Option (String × CacheEntry V)
  | [] => none
  | x :: rest =>
      some (rest.foldl (fun best y => if EntryLt y.2 best.2 then y else best) x)

/-- Embedding of `InmemoryCache<T>`: the entry mapping, the immutable
configuration and the statistics counters. -/
structure InmemoryCache (V : Type) where
  store : Store V
  config : CacheConfig
  stats : CacheStats

/-- `InmemoryCache::new`. -/
def InmemoryCache.new {V : Type} (config : CacheConfig) : InmemoryCache V :=
  { store := [], config := config, stats := CacheStats.zero }

/-- `InmemoryCache::with_defaults`: kind memory, max_size 1000,
expiration 3600 seconds. -/
def InmemoryCache.with_defaults {V : Type} : InmemoryCache V :=
  InmemoryCache.new { kind := "memory", max_size := 1000, expiration := 3600 }

/-- `InmemoryCache::is_enabled`. -/
def InmemoryCache.is_enabled {V : Type} (c : InmemoryCache V) : Bool :=
  decide (c.config.kind = "memory")

/-- `InmemoryCache::evict_lru`: a no-op below capacity, otherwise remove
the first minimal entry under `EntryLt` and count one removal.  The source
returns `Ok(())` on every path, so no error component is modelled. -/
def InmemoryCache.evict_lru {V : Type} (cfg : CacheConfig) (store : Store V)
    (stats : CacheStats) : Store V × CacheStats :=
  if store.length < cfg.max_size then (store, stats)
  else
    match lruPick store with
    | some (k, _) =>
        (storeErase store k, { stats with removes := stats.removes + 1 })
    | none => (store, stats)

/-- `InmemoryCache::get` (the `CacheTrait` implementation): empty keys are
rejected with no side effect; an expired entry is removed and counted as a
miss; a live entry is accessed (bumping its count) and counted as a hit;
an absent key is counted as a miss. -/
def InmemoryCache.get {V : Type} (c : InmemoryCache V) (key : String)
    (now : Nat) : Option V × InmemoryCache V :=
  if key = "" then (none, c)
  else
    match storeFind c.store key with
    | some entry =>
        if entry.is_expired now c.config.expiration then
          (none, { c with store := storeErase c.store key,
                          stats := { c.stats with misses := c.stats.misses + 1 } })
        else
          (some (CacheEntry.access entry).1,
           { c with store := storeInsert c.store key (CacheEntry.access entry).2,
                    stats := { c.stats with hits := c.stats.hits + 1 } })
    | none =>
        (none, { c with stats := { c.stats with misses := c.stats.misses + 1 } })

/-- `InmemoryCache::insert`: empty keys fail with `InvalidKey`; when the
store is at or above capacity and the key is new, `evict_lru` runs first;
the entry is then stored (replacing any previous one wholesale) and
`inserts` is bumped. -/
def InmemoryCache.insert {V : Type} (c : InmemoryCache V) (key : String)
    (value : V) (now : Nat) : Except CacheError (InmemoryCache V) :=
  if key = "" then .error (.InvalidKey "Key cannot be empty")
  else
    let p :=
      if c.config.max_size ≤ c.store.length ∧ storeContains c.store key = false
      then InmemoryCache.evict_lru c.config c.store c.stats
      else (c.store, c.stats)
    .ok { c with store := storeInsert p.1 key (CacheEntry.new value now),
                 stats := { p.2 with inserts := p.2.inserts + 1 } }

/-- `InmemoryCache::remove`: empty keys are a no-op; a present key is
deleted, its value returned and `removes` bumped; an absent key is a
no-op. -/
def InmemoryCache.remove {V : Type} (c : InmemoryCache V) (key : String) :
    Option V × InmemoryCache V :=
  if key = "" then (none, c)
  else
    match storeFind c.store key with
    | some entry =>
        (some entry.value,
         { c with store := storeErase c.store key,
                  stats := { c.stats with removes := c.stats.removes + 1 } })
    | none => (none, c)

/-- `InmemoryCache::clear`: drop every entry and reset the statistics. -/
def InmemoryCache.clear {V : Type} (c : InmemoryCache V) : InmemoryCache V :=
  { c with store := [], stats := CacheStats.zero }

/-- `InmemoryCache::size`. -/
def InmemoryCache.size {V : Type} (c : InmemoryCache V) : Nat :=
  c.store.length

/-- `InmemoryCache::hit_rate` (the trait method delegates to the stats). -/
def InmemoryCache.hit_rate {V : Type} (c : InmemoryCache V) : ℚ :=
  c.stats.hit_rate

/-- The expiration predicate used by `cleanup_expired_entries` for the
store's configured TTL. -/
def expiredNow {V : Type} (cfg : CacheConfig) (now : Nat)
    (p : String × CacheEntry V) : Bool :=
  p.2.is_expired now cfg.expiration

/-- `InmemoryCache::cleanup_expired_entries`: remove every expired entry;
when at least one was removed, bump `cleanups` by one and `removes` by the
number removed. -/
def InmemoryCache.cleanup_expired {V : Type} (c : InmemoryCache V)
    (now : Nat) : InmemoryCache V :=
  let expired_count := (c.store.filter (expiredNow c.config now)).length
  let store' := c.store.filter (fun p => ! expiredNow c.config now p)
  if 0 < expired_count then
    { c with store := store',
             stats := { c.stats with
                          cleanups := c.stats.cleanups + 1,
                          removes := c.stats.removes + expired_count } }
  else
    { c with store := store' }

/-- `InmemoryCache::contains_key`: raw presence in the mapping, with no
expiration check and no mutation (the model returns only a Bool, so
purity is by construction). -/
def InmemoryCache.contains_key {V : Type} (c : InmemoryCache V)
    (key : String) : Bool :=
  storeContains c.store key

/-- `InmemoryCache::keys`: snapshot of the keys. -/
def InmemoryCache.keys {V : Type} (c : InmemoryCache V) : List String :=
  c.store.map Prod.fst

/-- `InmemoryCache::stats`: snapshot of the counters (the lock always
succeeds in this model). -/
def InmemoryCache.statsSnapshot {V : Type} (c : InmemoryCache V) : CacheStats :=
  c.stats

/-- The unique-key invariant the source HashMap maintains by construction. -/
def WF {V : Type} (c : InmemoryCache V) : Prop :=
  (c.store.map Prod.fst).Nodup

instance {V : Type} (c : InmemoryCache V) : Decidable (WF c) := by
  unfold WF; infer_instance

/-- Pointwise order on statistics counters: every counter of the first is
at most the corresponding counter of the second. -/
def StatsLe (a b : CacheStats) : Prop :=
  a.hits ≤ b.hits ∧ a.misses ≤ b.misses ∧ a.inserts ≤ b.inserts ∧
    a.removes ≤ b.removes ∧ a.cleanups ≤ b.cleanups

/-- The cache states reachable through the public operations from a fresh
store: construction, get, successful insert, remove, clear and cleanup.
A failed insert leaves the caller's state untouched, so it adds no edge. -/
inductive Reachable {V : Type} : InmemoryCache V → Prop where
  | new (config : CacheConfig) : Reachable (InmemoryCache.new config)
  | get {c : InmemoryCache V} (key : String) (now : Nat) :
      Reachable c → Reachable (c.get key now).2
  | insert_ok {c c' : InmemoryCache V} (key : String) (value : V) (now : Nat) :
      Reachable c → c.insert key value now = .ok c' → Reachable c'
  | remove {c : InmemoryCache V} (key : String) :
      Reachable c → Reachable (c.remove key).2
  | clear {c : InmemoryCache V} : Reachable c → Reachable c.clear
  | cleanup {c : InmemoryCache V} (now : Nat) :
      Reachable c → Reachable (c.cleanup_expired now)

/-- Convenience wrapper for concrete executions: the caller's state after
an insert call, which is the returned state on Ok and the unchanged prior
state on an error (the source insert mutates nothing before failing). -/
def insertD {V : Type} (c : InmemoryCache V) (k : String) (v : V)
    (now : Nat) : InmemoryCache V :=
  match c.insert k v now with
  | .ok c' => c'
  | .error _ => c

/-- A configuration with capacity zero; max_size is u32 in the source, so
zero is a representable configuration. -/
def cfgZero : CacheConfig := { kind := "memory", max_size := 0, expiration := 3600 }

/-- A fresh cache with capacity zero. -/
def cacheZero : InmemoryCache Nat := InmemoryCache.new cfgZero

/-- A configuration with a one-second TTL. -/
def cfgShort : CacheConfig := { kind := "memory", max_size := 10, expiration := 1 }

/-- A cache holding one entry created at tick 0; at tick 5 that entry is
expired but still physically present. -/
def cacheExpired : InmemoryCache Nat := insertD (InmemoryCache.new cfgShort) "a" 7 0

/-- A configuration with capacity one. -/
def cfgOne : CacheConfig := { kind := "memory", max_size := 1, expiration := 3600 }

/-- A cache at capacity: one entry under a max_size of one. -/
def cacheFull : InmemoryCache Nat := insertD (InmemoryCache.new cfgOne) "a" 5 0

/-- A concrete statistics value with three hits and one miss. -/
def stats31 : CacheStats :=
  { hits := 3, misses := 1, inserts := 4, removes := 0, cleanups := 0 }

/-! Helper lemmas about the store model. -/

theorem storeFind_storeInsert_self {V : Type} (s : Store V) (k : String)
    (e : CacheEntry V) : storeFind (storeInsert s k e) k = some e := by
  induction s with
  | nil => simp [storeInsert, storeFind]
  | cons p rest ih =>
      by_cases h : p.1 = k
      · simp [storeInsert, storeFind, h]
      · simp [storeInsert, storeFind, h, ih]

theorem storeFind_storeInsert_ne {V : Type} (s : Store V) (k k' : String)
    (e : CacheEntry V) (h : k' ≠ k) :
    storeFind (storeInsert s k e) k' = storeFind s k' := by
  induction s with
  | nil => simp [storeInsert, storeFind, Ne.symm h]
  | cons p rest ih =>
      by_cases hp : p.1 = k
      · simp [storeInsert, storeFind, hp, Ne.symm h]
      · simp [storeInsert, storeFind, hp, ih]

theorem storeFind_storeErase {V : Type} (s : Store V) (k k' : String) :
    storeFind (storeErase s k) k' =
      if k' = k then none else storeFind s k' := by
  induction s with
  | nil => simp [storeErase, storeFind]
  | cons p rest ih =>
      by_cases hp : p.1 = k
      · have hdrop : storeErase (p :: rest) k = storeErase rest k := by
          simp [storeErase, List.filter_cons, hp]
        rw [hdrop, ih]
        by_cases h : k' = k
        · simp [h]
        · have hpk' : ¬ p.1 = k' := by rw [hp]; exact Ne.symm h
          simp [h, storeFind, hpk']
      · have hkeep : storeErase (p :: rest) k = p :: storeErase rest k := by
          simp [storeErase, List.filter_cons, hp]
        rw [hkeep]
        by_cases h : k' = k
        · subst h
          simp [storeFind, hp, ih]
        · simp [storeFind, ih, h]

theorem storeFind_eq_none_of_not_mem {V : Type} (s : Store V) (k : String)
    (h : k ∉ s.map Prod.fst) : storeFind s k = none := by
  induction s with
  | nil => rfl
  | cons p rest ih =>
      simp only [List.map_cons, List.mem_cons] at h
      push_neg at h
      simp [storeFind, Ne.symm h.1, ih h.2]

theorem storeContains_of_mem {V : Type} (s : Store V)
    (p : String × CacheEntry V) (h : p ∈ s) : storeContains s p.1 = true := by
  induction s with
  | nil => cases h
  | cons q rest ih =>
      rcases List.mem_cons.1 h with h | h
      · subst h; simp [storeContains, storeFind]
      · by_cases hq : q.1 = p.1
        · simp [storeContains, storeFind, hq]
        · simpa [storeContains, storeFind, hq] using ih h

theorem length_storeInsert_present {V : Type} (s : Store V) (k : String)
    (e : CacheEntry V) (h : storeContains s k = true) :
    (storeInsert s k e).length = s.length := by
  induction s with
  | nil => simp [storeContains, storeFind] at h
  | cons p rest ih =>
      by_cases hp : p.1 = k
      · simp [storeInsert, hp]
      · simp only [storeContains, storeFind, if_neg hp] at h
        simp [storeInsert, if_neg hp, ih h]

theorem length_storeInsert_absent {V : Type} (s : Store V) (k : String)
    (e : CacheEntry V) (h : storeContains s k = false) :
    (storeInsert s k e).length = s.length + 1 := by
  induction s with
  | nil => simp [storeInsert]
  | cons p rest ih =>
      by_cases hp : p.1 = k
      · simp [storeContains, storeFind, hp] at h
      · simp only [storeContains, storeFind, if_neg hp] at h
        simp [storeInsert, if_neg hp, ih h]

theorem length_storeErase_le {V : Type} (s : Store V) (k : String) :
    (storeErase s k).length ≤ s.length :=
  List.length_filter_le _ s

theorem length_storeErase_lt {V : Type} (s : Store V) (k : String)
    (h : storeContains s k = true) :
    (storeErase s k).length < s.length := by
  induction s with
  | nil => simp [storeContains, storeFind] at h
  | cons p rest ih =>
      by_cases hp : p.1 = k
      · simp only [storeErase, List.filter_cons, hp, decide_not]
        simp only [decide_True, Bool.not_true, Bool.false_eq_true, if_false]
        exact Nat.lt_succ_of_le (List.length_filter_le _ rest)
      · simp only [storeContains, storeFind, if_neg hp] at h
        simp only [storeErase, List.filter_cons, decide_not]
        have := ih h
        by_cases hd : (decide (p.1 = k) : Bool)
        · simp at hd; exact absurd hd hp
        · simp only [Bool.not_eq_true] at hd
          simp [hd, storeErase] at this ⊢
          omega

theorem length_storeErase_nodup {V : Type} (s : Store V) (k : String)
    (hnd : (s.map Prod.fst).Nodup) (h : storeContains s k = true) :
    s.length = (storeErase s k).length + 1 := by
  induction s with
  | nil => simp [storeContains, storeFind] at h
  | cons p rest ih =>
      simp only [List.map_cons, List.nodup_cons] at hnd
      by_cases hp : p.1 = k
      · have hdrop : storeErase (p :: rest) k = storeErase rest k := by
          simp [storeErase, List.filter_cons, hp]
        have hall : storeErase rest k = rest := by
          show rest.filter (fun q => decide (q.1 ≠ k)) = rest
          apply List.filter_eq_self.2
          intro q hq
          have hne : q.1 ≠ k := by
            intro hk
            apply hnd.1
            have hmem : q.1 ∈ List.map Prod.fst rest :=
              List.mem_map_of_mem Prod.fst hq
            rwa [hk, ← hp] at hmem
          simpa using hne
        rw [hdrop, hall]
        simp
      · simp only [storeContains, storeFind, if_neg hp] at h
        have : storeErase (p :: rest) k = p :: storeErase rest k := by
          simp [storeErase, List.filter_cons, hp]
        rw [this]
        simp [ih hnd.2 h]

theorem storeFind_filter_nodup {V : Type} (s : Store V)
    (q : String × CacheEntry V → Bool) (k : String)
    (hnd : (s.map Prod.fst).Nodup) :
    storeFind (s.filter q) k =
      match storeFind s k with
      | some e => if q (k, e) then some e else none
      | none => none := by
  induction s with
  | nil => simp [storeFind]
  | cons p rest ih =>
      simp only [List.map_cons, List.nodup_cons] at hnd
      by_cases hp : p.1 = k
      · subst hp
        by_cases hq : q p
        · simp [List.filter_cons, hq, storeFind]
        · simp only [List.filter_cons, hq, Bool.false_eq_true, if_false]
          have hnone : storeFind (rest.filter q) p.1 = none := by
            apply storeFind_eq_none_of_not_mem
            intro hmem
            apply hnd.1
            rcases List.mem_map.1 hmem with ⟨r, hr, hre⟩
            exact hre ▸ List.mem_map_of_mem Prod.fst (List.mem_of_mem_filter hr)
          simp [storeFind, hnone, hq]
      · by_cases hq : q p
        · simp [List.filter_cons, hq, storeFind, hp, ih hnd.2]
        · simp [List.filter_cons, hq, storeFind, hp, ih hnd.2]

/-! Helper lemmas about the eviction order and the min_by fold. -/

theorem entryLe_refl {V : Type} (a : CacheEntry V) : EntryLe a a :=
  Or.inr ⟨rfl, Nat.le_refl _⟩

theorem entryLe_trans {V : Type} {a b c : CacheEntry V}
    (hab : EntryLe a b) (hbc : EntryLe b c) : EntryLe a c := by
  unfold EntryLe at *
  rcases hab with h | ⟨h1, h2⟩ <;> rcases hbc with h' | ⟨h1', h2'⟩
  · exact Or.inl (h.trans h')
  · exact Or.inl (h1' ▸ h)
  · exact Or.inl (h1 ▸ h')
  · exact Or.inr ⟨h1.trans h1', h2.trans h2'⟩

theorem entryLe_of_entryLt {V : Type} {a b : CacheEntry V}
    (h : EntryLt a b) : EntryLe a b := by
  unfold EntryLt at h; unfold EntryLe
  rcases h with h | ⟨h1, h2⟩
  · exact Or.inl h
  · exact Or.inr ⟨h1, Nat.le_of_lt h2⟩

theorem entryLe_of_not_entryLt {V : Type} {a b : CacheEntry V}
    (h : ¬ EntryLt a b) : EntryLe b a := by
  unfold EntryLt at h; unfold EntryLe
  push_neg at h
  rcases Nat.lt_trichotomy b.created_at a.created_at with h' | h' | h'
  · exact Or.inl h'
  · exact Or.inr ⟨h', h.2 h'.symm⟩
  · exact absurd h' h.1.not_lt

/-- The fold body of the min_by in evict_lru. -/
def pickStep {V : Type} (best y : String × CacheEntry V) :
    String × CacheEntry V :=
  if EntryLt y.2 best.2 then y else best

theorem foldl_pickStep_mem {V : Type} (l : Store V)
    (x : String × CacheEntry V) :
    l.foldl pickStep x = x ∨ l.foldl pickStep x ∈ l := by
  induction l generalizing x with
  | nil => exact Or.inl rfl
  | cons y rest ih =>
      rw [List.foldl_cons]
      rcases ih (pickStep x y) with h | h
      · rw [h]
        unfold pickStep
        split
        · exact Or.inr (List.mem_cons_self y rest)
        · exact Or.inl rfl
      · exact Or.inr (List.mem_cons_of_mem y h)

theorem foldl_pickStep_le {V : Type} (l : Store V)
    (x : String × CacheEntry V) :
    EntryLe (l.foldl pickStep x).2 x.2 ∧
      ∀ y ∈ l, EntryLe (l.foldl pickStep x).2 y.2 := by
  induction l generalizing x with
  | nil => exact ⟨entryLe_refl _, by simp⟩
  | cons y rest ih =>
      rcases ih (pickStep x y) with ⟨h1, h2⟩
      have hstep : EntryLe (pickStep x y).2 x.2 ∧ EntryLe (pickStep x y).2 y.2 := by
        unfold pickStep
        split
        · next hlt => exact ⟨entryLe_of_entryLt hlt, entryLe_refl _⟩
        · next hlt => exact ⟨entryLe_refl _, entryLe_of_not_entryLt hlt⟩
      refine ⟨?_, ?_⟩
      · simpa [List.foldl_cons] using entryLe_trans h1 hstep.1
      · intro z hz
        rcases List.mem_cons.1 hz with hz | hz
        · subst hz
          simpa [List.foldl_cons] using entryLe_trans h1 hstep.2
        · simpa [List.foldl_cons] using h2 z hz

theorem lruPick_mem {V : Type} (s : Store V) (x : String × CacheEntry V)
    (h : lruPick s = some x) : x ∈ s := by
  cases s with
  | nil => simp [lruPick] at h
  | cons y rest =>
      simp only [lruPick, Option.some.injEq] at h
      have := foldl_pickStep_mem rest y
      unfold pickStep at this
      rw [h] at this
      rcases this with h' | h'
      · exact h' ▸ List.mem_cons_self y rest
      · exact List.mem_cons_of_mem y h'

theorem lruPick_min {V : Type} (s : Store V) (x : String × CacheEntry V)
    (h : lruPick s = some x) : ∀ y ∈ s, EntryLe x.2 y.2 := by
  cases s with
  | nil => simp [lruPick] at h
  | cons z rest =>
      simp only [lruPick, Option.some.injEq] at h
      have hle := foldl_pickStep_le rest z
      unfold pickStep at hle
      rw [h] at hle
      intro y hy
      rcases List.mem_cons.1 hy with hy | hy
      · exact hy ▸ hle.1
      · exact hle.2 y hy

theorem lruPick_isSome_of_ne_nil {V : Type} (s : Store V) (h : s ≠ []) :
    ∃ x, lruPick s = some x := by
  cases s with
  | nil => exact absurd rfl h
  | cons y rest => exact ⟨_, rfl⟩

/-! Helper lemmas about the cache operations. -/

theorem get_config {V : Type} (c : InmemoryCache V) (key : String) (now : Nat) :
    ((c.get key now).2).config = c.config := by
  unfold InmemoryCache.get
  by_cases hk : key = ""
  · simp [hk]
  · simp only [if_neg hk]
    cases hfind : storeFind c.store key with
    | none => rfl
    | some e =>
        by_cases hexp : e.is_expired now c.config.expiration <;> simp [hexp]

theorem get_store_length_le {V : Type} (c : InmemoryCache V) (key : String)
    (now : Nat) : ((c.get key now).2).store.length ≤ c.store.length := by
  unfold InmemoryCache.get
  by_cases hk : key = ""
  · simp [hk]
  · simp only [if_neg hk]
    cases hfind : storeFind c.store key with
    | none => simp
    | some e =>
        by_cases hexp : e.is_expired now c.config.expiration <;> simp [hexp]
        · exact length_storeErase_le _ _
        · have hc : storeContains c.store key = true := by
            simp [storeContains, hfind]
          simp [length_storeInsert_present _ _ _ hc]

theorem remove_config {V : Type} (c : InmemoryCache V) (key : String) :
    ((c.remove key).2).config = c.config := by
  unfold InmemoryCache.remove
  by_cases hk : key = ""
  · simp [hk]
  · simp only [if_neg hk]
    cases storeFind c.store key <;> rfl

theorem remove_store_length_le {V : Type} (c : InmemoryCache V) (key : String) :
    ((c.remove key).2).store.length ≤ c.store.length := by
  unfold InmemoryCache.remove
  by_cases hk : key = ""
  · simp [hk]
  · simp only [if_neg hk]
    cases storeFind c.store key with
    | none => simp
    | some e => simpa using length_storeErase_le c.store key

theorem cleanup_config {V : Type} (c : InmemoryCache V) (now : Nat) :
    ((c.cleanup_expired now)).config = c.config := by
  simp only [InmemoryCache.cleanup_expired]
  split <;> rfl

theorem cleanup_store_length_le {V : Type} (c : InmemoryCache V) (now : Nat) :
    ((c.cleanup_expired now)).store.length ≤ c.store.length := by
  simp only [InmemoryCache.cleanup_expired]
  split <;> simpa using List.length_filter_le _ c.store

theorem storeContains_storeErase_false {V : Type} (s : Store V)
    (k0 k : String) (h : storeContains s k = false) :
    storeContains (storeErase s k0) k = false := by
  unfold storeContains at *
  rw [storeFind_storeErase]
  split
  · rfl
  · exact h

theorem evict_lru_spec_at_capacity {V : Type} (cfg : CacheConfig)
    (store : Store V) (stats : CacheStats)
    (h1 : 1 ≤ cfg.max_size) (h2 : cfg.max_size ≤ store.length) :
    ∃ x, lruPick store = some x ∧
      InmemoryCache.evict_lru cfg store stats =
        (storeErase store x.1,
         { stats with removes := stats.removes + 1 }) := by
  have hne : store ≠ [] := by
    intro h
    rw [h] at h2
    simp at h2
    omega
  rcases lruPick_isSome_of_ne_nil store hne with ⟨x, hx⟩
  refine ⟨x, hx, ?_⟩
  unfold InmemoryCache.evict_lru
  rw [if_neg (by omega), hx]

theorem evict_lru_contains_false {V : Type} (cfg : CacheConfig)
    (store : Store V) (stats : CacheStats) (k : String)
    (h : storeContains store k = false) :
    storeContains (InmemoryCache.evict_lru cfg store stats).1 k = false := by
  unfold InmemoryCache.evict_lru
  split
  · exact h
  · cases hx : lruPick store with
    | none => exact h
    | some x =>
        obtain ⟨k0, e0⟩ := x
        simpa using storeContains_storeErase_false store k0 k h

theorem evict_lru_length_lt {V : Type} (cfg : CacheConfig) (store : Store V)
    (stats : CacheStats) (h1 : 1 ≤ cfg.max_size)
    (h2 : cfg.max_size ≤ store.length) :
    (InmemoryCache.evict_lru cfg store stats).1.length < store.length := by
  rcases evict_lru_spec_at_capacity cfg store stats h1 h2 with ⟨x, hx, heq⟩
  rw [heq]
  exact length_storeErase_lt store x.1 (storeContains_of_mem store x (lruPick_mem store x hx))

theorem insert_ok_eq {V : Type} (c : InmemoryCache V) (k : String) (v : V)
    (now : Nat) (hk : ¬ k = "") :
    c.insert k v now = .ok
      { c with
          store := storeInsert
            (if c.config.max_size ≤ c.store.length ∧ storeContains c.store k = false
             then InmemoryCache.evict_lru c.config c.store c.stats
             else (c.store, c.stats)).1 k (CacheEntry.new v now),
          stats :=
            { (if c.config.max_size ≤ c.store.length ∧ storeContains c.store k = false
               then InmemoryCache.evict_lru c.config c.store c.stats
               else (c.store, c.stats)).2 with
                inserts :=
                  (if c.config.max_size ≤ c.store.length ∧ storeContains c.store k = false
                   then InmemoryCache.evict_lru c.config c.store c.stats
                   else (c.store, c.stats)).2.inserts + 1 } } := by
  simp [InmemoryCache.insert, hk]

theorem insert_ok_config {V : Type} (c c' : InmemoryCache V) (k : String)
    (v : V) (now : Nat) (hok : c.insert k v now = .ok c') :
    c'.config = c.config := by
  by_cases hk : k = ""
  · simp [InmemoryCache.insert, hk] at hok
  · rw [insert_ok_eq c k v now hk] at hok
    cases hok
    rfl

theorem insert_ok_store_length_le {V : Type} (c c' : InmemoryCache V)
    (k : String) (v : V) (now : Nat)
    (hpre : c.store.length ≤ c.config.max_size)
    (h1 : 1 ≤ c.config.max_size)
    (hok : c.insert k v now = .ok c') :
    c'.store.length ≤ c.config.max_size := by
  by_cases hk : k = ""
  · simp [InmemoryCache.insert, hk] at hok
  · rw [insert_ok_eq c k v now hk] at hok
    cases hok
    by_cases hcond : c.config.max_size ≤ c.store.length ∧ storeContains c.store k = false
    · simp only [if_pos hcond]
      have hlt := evict_lru_length_lt c.config c.store c.stats h1 hcond.1
      have habs := evict_lru_contains_false c.config c.store c.stats k hcond.2
      rw [length_storeInsert_absent _ _ _ habs]
      omega
    · simp only [if_neg hcond]
      by_cases hc : storeContains c.store k = true
      · rw [length_storeInsert_present _ _ _ hc]
        exact hpre
      · have hcf : storeContains c.store k = false := by
          cases h : storeContains c.store k
          · rfl
          · exact absurd h hc
        have hlen : ¬ c.config.max_size ≤ c.store.length := by
          intro hle
          exact hcond ⟨hle, hcf⟩
        rw [length_storeInsert_absent _ _ _ hcf]
        omega

theorem reachable_store_length_le {V : Type} (c : InmemoryCache V)
    (hr : Reachable c) (h1 : 1 ≤ c.config.max_size) :
    c.store.length ≤ c.config.max_size := by
  induction hr with
  | new cfg => simp [InmemoryCache.new]
  | get key now hc ih =>
      rename_i c0
      rw [get_config] at h1 ⊢
      exact le_trans (get_store_length_le c0 key now) (ih h1)
  | insert_ok key value now hc hok ih =>
      rename_i c0 c1
      rw [insert_ok_config c0 c1 key value now hok] at h1 ⊢
      exact insert_ok_store_length_le c0 c1 key value now (ih h1) h1 hok
  | remove key hc ih =>
      rename_i c0
      rw [remove_config] at h1 ⊢
      exact le_trans (remove_store_length_le c0 key) (ih h1)
  | clear hc ih =>
      rename_i c0
      simp [InmemoryCache.clear] at h1 ⊢
  | cleanup now hc ih =>
      rename_i c0
      rw [cleanup_config] at h1 ⊢
      exact le_trans (cleanup_store_length_le c0 now) (ih h1)

theorem storeFind_eq_of_mem_nodup {V : Type} (s : Store V)
    (x : String × CacheEntry V) (hnd : (s.map Prod.fst).Nodup) (hx : x ∈ s) :
    storeFind s x.1 = some x.2 := by
  induction s with
  | nil => cases hx
  | cons p rest ih =>
      simp only [List.map_cons, List.nodup_cons] at hnd
      rcases List.mem_cons.1 hx with hx | hx
      · subst hx
        simp [storeFind]
      · have hne : ¬ p.1 = x.1 := by
          intro h
          exact hnd.1 (h ▸ List.mem_map_of_mem Prod.fst hx)
        simp [storeFind, hne, ih hnd.2 hx]

/-- Equation for a get on a present, non-expired entry: it bumps the
entry's access count in place, bumps hits and returns a clone of the
value. -/
theorem get_hit_eq {V : Type} (c : InmemoryCache V) (k : String) (now : Nat)
    (e : CacheEntry V) (hk : ¬ k = "") (hfind : storeFind c.store k = some e)
    (hexp : e.is_expired now c.config.expiration = false) :
    c.get k now =
      (some e.value,
       { c with store := storeInsert c.store k { e with access_count := e.access_count + 1 },
                stats := { c.stats with hits := c.stats.hits + 1 } }) := by
  unfold InmemoryCache.get
  rw [if_neg hk, hfind]
  simp [hexp, CacheEntry.access]

/-- Equation for a get on a present but expired entry: removes it and
counts a miss (and, notably, does not touch the removes counter). -/
theorem get_expired_eq {V : Type} (c : InmemoryCache V) (k : String) (now : Nat)
    (e : CacheEntry V) (hk : ¬ k = "") (hfind : storeFind c.store k = some e)
    (hexp : e.is_expired now c.config.expiration = true) :
    c.get k now =
      (none,
       { c with store := storeErase c.store k,
                stats := { c.stats with misses := c.stats.misses + 1 } }) := by
  unfold InmemoryCache.get
  rw [if_neg hk, hfind]
  simp [hexp]

/-- Equation for a get on an absent key: counts a miss, store untouched. -/
theorem get_miss_eq {V : Type} (c : InmemoryCache V) (k : String) (now : Nat)
    (hk : ¬ k = "") (hfind : storeFind c.store k = none) :
    c.get k now =
      (none, { c with stats := { c.stats with misses := c.stats.misses + 1 } }) := by
  unfold InmemoryCache.get
  rw [if_neg hk, hfind]

/-- Equation for a remove on a present key. -/
theorem remove_present_eq {V : Type} (c : InmemoryCache V) (k : String)
    (e : CacheEntry V) (hk : ¬ k = "") (hfind : storeFind c.store k = some e) :
    c.remove k =
      (some e.value,
       { c with store := storeErase c.store k,
                stats := { c.stats with removes := c.stats.removes + 1 } }) := by
  unfold InmemoryCache.remove
  rw [if_neg hk, hfind]

/-- Equation for a remove on an absent key: a perfect no-op. -/
theorem remove_absent_eq {V : Type} (c : InmemoryCache V) (k : String)
    (hfind : storeFind c.store k = none) :
    c.remove k = (none, c) := by
  unfold InmemoryCache.remove
  by_cases hk : k = ""
  · rw [if_pos hk]
  · rw [if_neg hk, hfind]

/-- The store after a cleanup pass: exactly the non-expired entries. -/
theorem cleanup_store_eq {V : Type} (c : InmemoryCache V) (now : Nat) :
    (c.cleanup_expired now).store =
      c.store.filter (fun p => ! expiredNow c.config now p) := by
  simp only [InmemoryCache.cleanup_expired]
  split <;> rfl

/-- The statistics after a cleanup pass. -/
theorem cleanup_stats_eq {V : Type} (c : InmemoryCache V) (now : Nat) :
    (c.cleanup_expired now).stats =
      (if 0 < (c.store.filter (expiredNow c.config now)).length then
        { c.stats with
            cleanups := c.stats.cleanups + 1,
            removes :=
              c.stats.removes + (c.store.filter (expiredNow c.config now)).length }
       else c.stats) := by
  simp only [InmemoryCache.cleanup_expired]
  split <;> rfl

theorem statsLe_refl (s : CacheStats) : StatsLe s s :=
  ⟨Nat.le_refl _, Nat.le_refl _, Nat.le_refl _, Nat.le_refl _, Nat.le_refl _⟩

theorem evict_lru_stats_le {V : Type} (cfg : CacheConfig) (store : Store V)
    (stats : CacheStats) :
    StatsLe stats (InmemoryCache.evict_lru cfg store stats).2 := by
  unfold InmemoryCache.evict_lru
  split
  · exact statsLe_refl _
  · cases lruPick store with
    | none => exact statsLe_refl _
    | some x =>
        obtain ⟨k0, e0⟩ := x
        exact ⟨Nat.le_refl _, Nat.le_refl _, Nat.le_refl _, Nat.le_succ _, Nat.le_refl _⟩

theorem get_stats_le {V : Type} (c : InmemoryCache V) (k : String) (now : Nat) :
    StatsLe c.stats ((c.get k now).2).stats := by
  unfold InmemoryCache.get
  by_cases hk : k = ""
  · simp only [if_pos hk]
    exact statsLe_refl _
  · simp only [if_neg hk]
    cases hfind : storeFind c.store k with
    | none =>
        exact ⟨Nat.le_refl _, Nat.le_succ _, Nat.le_refl _, Nat.le_refl _, Nat.le_refl _⟩
    | some e =>
        by_cases hexp : e.is_expired now c.config.expiration <;> simp only [hexp]
        · exact ⟨Nat.le_refl _, Nat.le_succ _, Nat.le_refl _, Nat.le_refl _, Nat.le_refl _⟩
        · simp only [Bool.false_eq_true, if_false]
          exact ⟨Nat.le_succ _, Nat.le_refl _, Nat.le_refl _, Nat.le_refl _, Nat.le_refl _⟩

theorem insert_ok_stats_le {V : Type} (c c' : InmemoryCache V) (k : String)
    (v : V) (now : Nat) (hok : c.insert k v now = .ok c') :
    StatsLe c.stats c'.stats := by
  by_cases hk : k = ""
  · simp [InmemoryCache.insert, hk] at hok
  · rw [insert_ok_eq c k v now hk] at hok
    cases hok
    by_cases hcond : c.config.max_size ≤ c.store.length ∧ storeContains c.store k = false
    · simp only [if_pos hcond]
      have h := evict_lru_stats_le c.config c.store c.stats
      exact ⟨h.1, h.2.1, Nat.le_trans h.2.2.1 (Nat.le_succ _), h.2.2.2.1, h.2.2.2.2⟩
    · simp only [if_neg hcond]
      exact ⟨Nat.le_refl _, Nat.le_refl _, Nat.le_succ _, Nat.le_refl _, Nat.le_refl _⟩

theorem remove_stats_le {V : Type} (c : InmemoryCache V) (k : String) :
    StatsLe c.stats ((c.remove k).2).stats := by
  unfold InmemoryCache.remove
  by_cases hk : k = ""
  · simp only [if_pos hk]
    exact statsLe_refl _
  · simp only [if_neg hk]
    cases storeFind c.store k with
    | none => exact statsLe_refl _
    | some e =>
        exact ⟨Nat.le_refl _, Nat.le_refl _, Nat.le_refl _, Nat.le_succ _, Nat.le_refl _⟩

theorem cleanup_stats_le {V : Type} (c : InmemoryCache V) (now : Nat) :
    StatsLe c.stats ((c.cleanup_expired now)).stats := by
  rw [cleanup_stats_eq]
  split
  · exact ⟨Nat.le_refl _, Nat.le_refl _, Nat.le_refl _, Nat.le_add_right _ _, Nat.le_succ _⟩
  · exact statsLe_refl _

/-! Claim theorems. -/

/-- C5: the empty key is rejected on both paths: an insert with the empty
key fails with InvalidKey for every value, a get with the empty key
returns nothing, and in both cases no statistics counter is mutated and
the entry mapping is left unchanged (the get returns the cache state
untouched; the failing insert produces no new state, so the caller keeps
its prior state unchanged, as insertD makes explicit). -/
theorem C5_empty_key_rejected {V : Type} (c : InmemoryCache V) (v : V) (now : Nat) :
    c.insert "" v now = .error (.InvalidKey "Key cannot be empty") ∧
    c.get "" now = (none, c) ∧
    insertD c "" v now = c :=
  ⟨rfl, rfl, rfl⟩

/-- C7: for every non-empty key and value, an insert immediately followed
by a get of the same key (same instant, so no expiration, and the insert
itself placed the entry, so no intervening eviction) returns a value equal
to the one inserted. -/
theorem C7_insert_then_get_roundtrip {V : Type} (c c' : InmemoryCache V)
    (k : String) (v : V) (now : Nat) (hk : ¬ k = "")
    (hok : c.insert k v now = .ok c') :
    (c'.get k now).1 = some v := by
  rw [insert_ok_eq c k v now hk] at hok
  cases hok
  have key : ∀ (c0 : InmemoryCache V),
      storeFind c0.store k = some (CacheEntry.new v now) →
      (c0.get k now).1 = some v := by
    intro c0 h0
    have hexp : (CacheEntry.new v now).is_expired now c0.config.expiration = false := by
      simp [CacheEntry.new, CacheEntry.is_expired]
    rw [get_hit_eq c0 k now _ hk h0 hexp]
    simp [CacheEntry.new]
  apply key
  exact storeFind_storeInsert_self
    (if c.config.max_size ≤ c.store.length ∧ storeContains c.store k = false
     then InmemoryCache.evict_lru c.config c.store c.stats
     else (c.store, c.stats)).1 k (CacheEntry.new v now)

/-- C7 witness: inserting 7 under key a into a fresh store and reading it
back at the same instant returns 7. -/
theorem C7_witness :
    ((insertD (InmemoryCache.new cfgShort) "a" 7 0).get "a" 0).1 = some 7 :=
  C7_insert_then_get_roundtrip (InmemoryCache.new cfgShort)
    (insertD (InmemoryCache.new cfgShort) "a" 7 0) "a" 7 0 (by decide) rfl

/-- C4: get on a non-empty key: on a present non-expired entry it bumps
that entry's access_count and the hits counter by one and returns a
duplicate of the stored value; on a present but expired entry it removes
the entry and bumps misses by one, returning nothing; on an absent key it
bumps misses by one and returns nothing; and on a fresh store, getting
the key missing returns none and leaves a stats snapshot with
misses equal to one. -/
theorem C4_get_cases :
    (∀ (V : Type) (c : InmemoryCache V) (k : String) (now : Nat) (e : CacheEntry V),
        ¬ k = "" → storeFind c.store k = some e →
        e.is_expired now c.config.expiration = false →
        c.get k now =
          (some e.value,
           { c with
               store := storeInsert c.store k { e with access_count := e.access_count + 1 },
               stats := { c.stats with hits := c.stats.hits + 1 } })) ∧
    (∀ (V : Type) (c : InmemoryCache V) (k : String) (now : Nat) (e : CacheEntry V),
        ¬ k = "" → storeFind c.store k = some e →
        e.is_expired now c.config.expiration = true →
        c.get k now =
          (none,
           { c with store := storeErase c.store k,
                    stats := { c.stats with misses := c.stats.misses + 1 } })) ∧
    (∀ (V : Type) (c : InmemoryCache V) (k : String) (now : Nat),
        ¬ k = "" → storeFind c.store k = none →
        c.get k now =
          (none, { c with stats := { c.stats with misses := c.stats.misses + 1 } })) ∧
    (((InmemoryCache.with_defaults (V := Nat)).get "missing" 0).1 = none ∧
      (((InmemoryCache.with_defaults (V := Nat)).get "missing" 0).2).statsSnapshot.misses = 1) :=
  ⟨fun _ c k now e => get_hit_eq c k now e,
   fun _ c k now e => get_expired_eq c k now e,
   fun _ c k now => get_miss_eq c k now,
   by decide⟩

/-- C4 witness: a concrete hit on a live entry returns the stored value. -/
theorem C4_witness : (cacheFull.get "a" 3).1 = some 5 := by
  have h := C4_get_cases.1 Nat cacheFull "a" 3
    { value := 5, created_at := 0, access_count := 1 } (by decide) (by decide) (by decide)
  rw [h]

/-- C10: contains_key reports raw presence without consulting expiration:
on any present entry it returns true, even when that entry is already
expired, in which case a get on the same key returns nothing and removes
the entry; contains_key itself returns only a Bool in this model, so it
mutates neither the mapping nor the statistics by construction. -/
theorem C10_contains_key_ignores_expiration {V : Type} (c : InmemoryCache V)
    (k : String) (e : CacheEntry V) (now : Nat)
    (hfind : storeFind c.store k = some e) :
    c.contains_key k = true ∧
    (e.is_expired now c.config.expiration = true → ¬ k = "" →
      (c.get k now).1 = none ∧ storeFind ((c.get k now).2).store k = none) := by
  constructor
  · simp [InmemoryCache.contains_key, storeContains, hfind]
  · intro hexp hk
    rw [get_expired_eq c k now e hk hfind hexp]
    exact ⟨rfl, by simp [storeFind_storeErase]⟩

/-- C10 witness: a concrete cache with an expired but still present entry:
contains_key sees it, get removes it and misses. -/
theorem C10_witness :
    cacheExpired.contains_key "a" = true ∧
    ((cacheExpired.get "a" 5).1 = none ∧
      storeFind ((cacheExpired.get "a" 5).2).store "a" = none) := by
  have h := C10_contains_key_ignores_expiration cacheExpired "a"
    { value := 7, created_at := 0, access_count := 1 } 5 (by decide)
  exact ⟨h.1, h.2 (by decide) (by decide)⟩

/-- C1 (amended): for every reachable store whose configured max_size is
at least one, the number of entries in the mapping immediately after every
successful insert is at most max_size.  With a max_size of zero, which is
a representable u32 configuration, the bound fails; see the
counterexample. -/
theorem C1_size_bounded_after_insert {V : Type} (c c' : InmemoryCache V)
    (k : String) (v : V) (now : Nat) (hr : Reachable c)
    (h1 : 1 ≤ c.config.max_size) (hok : c.insert k v now = .ok c') :
    c'.store.length ≤ c'.config.max_size := by
  rw [insert_ok_config c c' k v now hok]
  exact insert_ok_store_length_le c c' k v now
    (reachable_store_length_le c hr h1) h1 hok

/-- C1 witness: a concrete successful insert into a fresh default store
leaves the size within the bound. -/
theorem C1_witness :
    (insertD (InmemoryCache.with_defaults (V := Nat)) "25" 25 0).store.length ≤
      (insertD (InmemoryCache.with_defaults (V := Nat)) "25" 25 0).config.max_size :=
  C1_size_bounded_after_insert (InmemoryCache.with_defaults (V := Nat))
    (insertD (InmemoryCache.with_defaults (V := Nat)) "25" 25 0) "25" 25 0
    (Reachable.new _) (by decide) rfl

/-- C1 counterexample: under the configuration with max_size zero, a fresh
store is reachable, the insert of key a succeeds, and the mapping size 1
exceeds max_size 0 immediately after the insert completes. -/
theorem C1_counterexample :
    Reachable cacheZero ∧
    (cacheZero.insert "a" 7 0).isOk = true ∧
    ¬ (insertD cacheZero "a" 7 0).store.length ≤
        (insertD cacheZero "a" 7 0).config.max_size :=
  ⟨Reachable.new cfgZero, by decide, by decide⟩

/-- C3 (amended): inserting a new key into a unique-key store that is at a
max_size capacity of at least one removes exactly one prior entry, namely
one whose created_at is minimal with ties broken by lowest access_count
(all other prior entries survive unchanged), increments removes by one,
and leaves the mapping size exactly max_size.  With max_size zero the
eviction finds nothing to remove and the size ends above capacity; see
the counterexample. -/
theorem C3_lru_eviction_at_capacity {V : Type} (c : InmemoryCache V)
    (k : String) (v : V) (now : Nat) (hwf : WF c)
    (hcap : c.store.length = c.config.max_size) (h1 : 1 ≤ c.config.max_size)
    (habs : storeContains c.store k = false) (hk : ¬ k = "") :
    ∃ c' rk re,
      c.insert k v now = .ok c' ∧
      storeFind c.store rk = some re ∧
      (∀ p ∈ c.store, EntryLe re p.2) ∧
      storeFind c'.store rk = none ∧
      storeFind c'.store k = some (CacheEntry.new v now) ∧
      (∀ k', ¬ k' = rk → ¬ k' = k → storeFind c'.store k' = storeFind c.store k') ∧
      c'.stats.removes = c.stats.removes + 1 ∧
      c'.store.length = c.config.max_size := by
  have hcond : c.config.max_size ≤ c.store.length ∧ storeContains c.store k = false :=
    ⟨hcap ▸ Nat.le_refl _, habs⟩
  rcases evict_lru_spec_at_capacity c.config c.store c.stats h1 hcond.1 with ⟨x, hx, heq⟩
  have hmem := lruPick_mem c.store x hx
  have hfind_rk : storeFind c.store x.1 = some x.2 :=
    storeFind_eq_of_mem_nodup c.store x hwf hmem
  have hmin := lruPick_min c.store x hx
  have hrk_ne_k : ¬ x.1 = k := by
    intro h
    have hc := storeContains_of_mem c.store x hmem
    rw [h, habs] at hc
    cases hc
  have hinsert := insert_ok_eq c k v now hk
  rw [if_pos hcond, heq] at hinsert
  refine ⟨_, x.1, x.2, hinsert, hfind_rk, hmin, ?_, ?_, ?_, ?_, ?_⟩
  · show storeFind (storeInsert (storeErase c.store x.1) k (CacheEntry.new v now)) x.1 = none
    rw [storeFind_storeInsert_ne _ _ _ _ hrk_ne_k, storeFind_storeErase]
    simp
  · exact storeFind_storeInsert_self _ _ _
  · intro k' hk'rk hk'k
    show storeFind (storeInsert (storeErase c.store x.1) k (CacheEntry.new v now)) k' =
      storeFind c.store k'
    rw [storeFind_storeInsert_ne _ _ _ _ hk'k, storeFind_storeErase, if_neg hk'rk]
  · rfl
  · show (storeInsert (storeErase c.store x.1) k (CacheEntry.new v now)).length =
      c.config.max_size
    have habs' : storeContains (storeErase c.store x.1) k = false :=
      storeContains_storeErase_false c.store x.1 k habs
    rw [length_storeInsert_absent _ _ _ habs']
    have hlen := length_storeErase_nodup c.store x.1 hwf (storeContains_of_mem c.store x hmem)
    omega

/-- C3 witness: a store of capacity one holding key a; inserting key b
evicts exactly the entry under a and the size stays one. -/
theorem C3_witness :
    ∃ c' rk re,
      cacheFull.insert "b" 9 2 = .ok c' ∧
      storeFind cacheFull.store rk = some re ∧
      (∀ p ∈ cacheFull.store, EntryLe re p.2) ∧
      storeFind c'.store rk = none ∧
      storeFind c'.store "b" = some (CacheEntry.new 9 2) ∧
      (∀ k', ¬ k' = rk → ¬ k' = "b" → storeFind c'.store k' = storeFind cacheFull.store k') ∧
      c'.stats.removes = cacheFull.stats.removes + 1 ∧
      c'.store.length = cacheFull.config.max_size :=
  C3_lru_eviction_at_capacity cacheFull "b" 9 2 (by decide) (by decide) (by decide)
    (by decide) (by decide)

/-- C3 counterexample: a store with max_size zero is at capacity when
empty; inserting a new key then removes no prior entry (removes stays
unchanged) and the resulting size 1 differs from max_size 0. -/
theorem C3_counterexample :
    WF cacheZero ∧
    cacheZero.store.length = cacheZero.config.max_size ∧
    storeContains cacheZero.store "a" = false ∧
    (cacheZero.insert "a" 7 0).isOk = true ∧
    (insertD cacheZero "a" 7 0).stats.removes = cacheZero.stats.removes ∧
    ¬ (insertD cacheZero "a" 7 0).store.length = cacheZero.config.max_size := by
  decide

/-- C2 (amended): removes is incremented exactly once per entry physically
removed by an explicit remove of a present key, by LRU eviction during
insert, and by expiration removals during cleanup (which adds exactly the
number of entries it removed); a remove of an absent key and an insert
that evicts nothing leave removes unchanged; but the removal of an
expired entry during get does not increment removes at all (only misses),
contrary to the original claim. -/
theorem C2_removes_accounting :
    (∀ (V : Type) (c : InmemoryCache V) (k : String) (e : CacheEntry V),
        ¬ k = "" → storeFind c.store k = some e →
        ((c.remove k).2.stats.removes = c.stats.removes + 1 ∧
          storeFind ((c.remove k).2).store k = none)) ∧
    (∀ (V : Type) (c : InmemoryCache V) (k : String),
        storeFind c.store k = none → c.remove k = (none, c)) ∧
    (∀ (V : Type) (c c' : InmemoryCache V) (k : String) (v : V) (now : Nat),
        c.config.max_size ≤ c.store.length → storeContains c.store k = false →
        1 ≤ c.config.max_size → c.insert k v now = .ok c' →
        c'.stats.removes = c.stats.removes + 1) ∧
    (∀ (V : Type) (c c' : InmemoryCache V) (k : String) (v : V) (now : Nat),
        ¬ (c.config.max_size ≤ c.store.length ∧ storeContains c.store k = false) →
        c.insert k v now = .ok c' →
        c'.stats.removes = c.stats.removes) ∧
    (∀ (V : Type) (c : InmemoryCache V) (now : Nat),
        ((c.cleanup_expired now)).stats.removes =
          c.stats.removes + (c.store.length - ((c.cleanup_expired now)).store.length)) ∧
    (∀ (V : Type) (c : InmemoryCache V) (k : String) (e : CacheEntry V) (now : Nat),
        ¬ k = "" → storeFind c.store k = some e →
        e.is_expired now c.config.expiration = true →
        (storeFind ((c.get k now).2).store k = none ∧
          ((c.get k now).2).stats.removes = c.stats.removes)) := by
  refine ⟨?_, ?_, ?_, ?_, ?_, ?_⟩
  · intro V c k e hk hfind
    rw [remove_present_eq c k e hk hfind]
    exact ⟨rfl, by simp [storeFind_storeErase]⟩
  · intro V c k hfind
    exact remove_absent_eq c k hfind
  · intro V c c' k v now hlen habs h1 hok
    have hk : ¬ k = "" := by
      intro h
      rw [h] at hok
      simp [InmemoryCache.insert] at hok
    have hcond : c.config.max_size ≤ c.store.length ∧ storeContains c.store k = false :=
      ⟨hlen, habs⟩
    rcases evict_lru_spec_at_capacity c.config c.store c.stats h1 hlen with ⟨x, hx, heq⟩
    rw [insert_ok_eq c k v now hk, if_pos hcond, heq] at hok
    cases hok
    rfl
  · intro V c c' k v now hcond hok
    have hk : ¬ k = "" := by
      intro h
      rw [h] at hok
      simp [InmemoryCache.insert] at hok
    rw [insert_ok_eq c k v now hk, if_neg hcond] at hok
    cases hok
    rfl
  · intro V c now
    rw [cleanup_stats_eq, cleanup_store_eq]
    have hsplit := @List.length_eq_length_filter_add _ c.store (expiredNow c.config now)
    split
    · next h =>
        show c.stats.removes + (c.store.filter (expiredNow c.config now)).length =
          c.stats.removes +
            (c.store.length -
              (c.store.filter (fun p => ! expiredNow c.config now p)).length)
        omega
    · next h =>
        show c.stats.removes = c.stats.removes +
          (c.store.length -
            (c.store.filter (fun p => ! expiredNow c.config now p)).length)
        omega
  · intro V c k e now hk hfind hexp
    rw [get_expired_eq c k now e hk hfind hexp]
    exact ⟨by simp [storeFind_storeErase], rfl⟩

/-- C2 witness: removing the present key a from a concrete store
increments removes by one and deletes the entry. -/
theorem C2_witness :
    (cacheFull.remove "a").2.stats.removes = cacheFull.stats.removes + 1 ∧
      storeFind ((cacheFull.remove "a").2).store "a" = none :=
  C2_removes_accounting.1 Nat cacheFull "a"
    { value := 5, created_at := 0, access_count := 1 } (by decide) (by decide)

/-- C2 counterexample: an expired entry is physically removed by a get
(present before, absent afterwards), yet the removes counter is not
incremented by one: it stays at its prior value zero. -/
theorem C2_counterexample :
    storeContains cacheExpired.store "a" = true ∧
    storeContains ((cacheExpired.get "a" 5).2).store "a" = false ∧
    ¬ ((cacheExpired.get "a" 5).2).stats.removes = cacheExpired.stats.removes + 1 := by
  decide

/-- C6: a cleanup pass removes exactly the entries whose age exceeds the
TTL (every expired entry disappears, every live entry survives unchanged,
nothing is added), increments cleanups by one exactly when at least one
entry was removed, and increments removes by precisely the number of
entries removed. -/
theorem C6_cleanup_expired_spec {V : Type} (c : InmemoryCache V) (now : Nat)
    (hwf : WF c) :
    (∀ (k : String) (e : CacheEntry V), storeFind c.store k = some e →
        e.is_expired now c.config.expiration = true →
        storeFind ((c.cleanup_expired now)).store k = none) ∧
    (∀ (k : String) (e : CacheEntry V), storeFind c.store k = some e →
        e.is_expired now c.config.expiration = false →
        storeFind ((c.cleanup_expired now)).store k = some e) ∧
    (∀ k : String, storeFind c.store k = none →
        storeFind ((c.cleanup_expired now)).store k = none) ∧
    c.store.length = ((c.cleanup_expired now)).store.length +
      (c.store.filter (expiredNow c.config now)).length ∧
    ((c.cleanup_expired now)).stats.cleanups = c.stats.cleanups +
      (if 0 < (c.store.filter (expiredNow c.config now)).length then 1 else 0) ∧
    ((c.cleanup_expired now)).stats.removes = c.stats.removes +
      (c.store.filter (expiredNow c.config now)).length := by
  have hfilter := fun k =>
    storeFind_filter_nodup c.store (fun p => ! expiredNow c.config now p) k hwf
  refine ⟨?_, ?_, ?_, ?_, ?_, ?_⟩
  · intro k e hfind hexp
    rw [cleanup_store_eq, hfilter k, hfind]
    simp [expiredNow, hexp]
  · intro k e hfind hexp
    rw [cleanup_store_eq, hfilter k, hfind]
    simp [expiredNow, hexp]
  · intro k hfind
    rw [cleanup_store_eq, hfilter k, hfind]
  · rw [cleanup_store_eq]
    have := @List.length_eq_length_filter_add _ c.store (expiredNow c.config now)
    omega
  · rw [cleanup_stats_eq]
    split
    · next h => simp [h]
    · next h =>
        simp only [Nat.not_lt, Nat.le_zero] at h
        simp [h]
  · rw [cleanup_stats_eq]
    split
    · next h => simp
    · next h =>
        simp only [Nat.not_lt, Nat.le_zero] at h
        simp [h]

/-- C6 witness: on a concrete store with one expired entry, cleanup bumps
removes by exactly the number of expired entries. -/
theorem C6_witness :
    (cacheExpired.cleanup_expired 5).stats.removes = cacheExpired.stats.removes +
      (cacheExpired.store.filter (expiredNow cacheExpired.config 5)).length :=
  (C6_cleanup_expired_spec cacheExpired 5 (by decide)).2.2.2.2.2

/-- C8: the statistics counters are reset to all-zero exactly by clear and
by no other operation: clear resets the counters, empties the mapping and
makes size 0 and hit_rate 0 regardless of prior activity, while get,
successful insert, remove and cleanup each leave every counter at or
above its prior value. -/
theorem C8_stats_reset_only_by_clear :
    (∀ (V : Type) (c : InmemoryCache V),
        c.clear.stats = CacheStats.zero ∧ c.clear.store = [] ∧
        c.clear.size = 0 ∧ c.clear.hit_rate = 0) ∧
    (∀ (V : Type) (c : InmemoryCache V) (k : String) (now : Nat),
        StatsLe c.stats ((c.get k now).2).stats) ∧
    (∀ (V : Type) (c c' : InmemoryCache V) (k : String) (v : V) (now : Nat),
        c.insert k v now = .ok c' → StatsLe c.stats c'.stats) ∧
    (∀ (V : Type) (c : InmemoryCache V) (k : String),
        StatsLe c.stats ((c.remove k).2).stats) ∧
    (∀ (V : Type) (c : InmemoryCache V) (now : Nat),
        StatsLe c.stats ((c.cleanup_expired now)).stats) :=
  ⟨fun _ _ => ⟨rfl, rfl, rfl, rfl⟩,
   fun _ => get_stats_le,
   fun _ c c' k v now => insert_ok_stats_le c c' k v now,
   fun _ => remove_stats_le,
   fun _ => cleanup_stats_le⟩

/-- C8 witness: a concrete successful insert leaves every counter at or
above its prior value. -/
theorem C8_witness :
    StatsLe (InmemoryCache.new cfgOne (V := Nat)).stats
      (insertD (InmemoryCache.new cfgOne) "a" 5 0).stats :=
  C8_stats_reset_only_by_clear.2.2.1 Nat (InmemoryCache.new cfgOne)
    (insertD (InmemoryCache.new cfgOne) "a" 5 0) "a" 5 0 rfl

/-- C9: hit_rate is 0 when hits + misses = 0 and hits / (hits + misses)
otherwise, and in every case the value lies in the interval from 0 to 1;
the store-level hit_rate is the statistics-level one. -/
theorem C9_hit_rate_spec :
    (∀ s : CacheStats, s.hits + s.misses = 0 → s.hit_rate = 0) ∧
    (∀ s : CacheStats, ¬ s.hits + s.misses = 0 →
        s.hit_rate = (s.hits : ℚ) / ((s.hits : ℚ) + (s.misses : ℚ))) ∧
    (∀ s : CacheStats, 0 ≤ s.hit_rate ∧ s.hit_rate ≤ 1) ∧
    (∀ (V : Type) (c : InmemoryCache V), c.hit_rate = c.stats.hit_rate) := by
  refine ⟨?_, ?_, ?_, fun _ c => rfl⟩
  · intro s h
    simp [CacheStats.hit_rate, h]
  · intro s h
    simp [CacheStats.hit_rate, h]
  · intro s
    unfold CacheStats.hit_rate
    split
    · norm_num
    · next h =>
        have hpos : (0 : ℚ) < (s.hits : ℚ) + (s.misses : ℚ) := by
          have h' : 0 < s.hits + s.misses := Nat.pos_of_ne_zero h
          exact_mod_cast h'
        constructor
        · positivity
        · rw [div_le_one hpos]
          exact le_add_of_nonneg_right (by positivity)

/-- C9 witness: three hits and one miss give a hit rate of 3/4, within
the unit interval. -/
theorem C9_witness :
    stats31.hit_rate = (stats31.hits : ℚ) / ((stats31.hits : ℚ) + (stats31.misses : ℚ)) :=
  C9_hit_rate_spec.2.1 stats31 (by decide)

end PokeProxy
